import Mathlib

/-!
Verification of the sinstruments instrument-simulator core
(`src/sinstruments/simulator.py`) against its natural-language
specification.

Byte strings are modelled as `List Nat` (one `Nat` per byte).  Python's
`bytes.split(sep)` (leftmost, non-overlapping) is modelled by `pySplit`,
built on `splitOnce`, which finds the first occurrence of the separator.
The `LineProtocol.read_messages` loop, the message dispatch of
`MessageProtocol.handle_message`, the `delay` function, the transport
`send`/`read` primitives, `TCPServer.broadcast`, `SerialServer.close`
and the `Server` device-registration loop are each embedded as
executable functions below, followed by the theorems about them.
-/

/-- A byte string: one `Nat` per byte, as read from / written to a channel. -/
abbrev Bytes := List Nat

/-! ## Python `bytes.split` (leftmost, non-overlapping) -/

/-- First occurrence of `sep` in `x`: `some (before, after)` where `before`
is the part strictly before the first occurrence and `after` the part
strictly after it (the separator itself consumed); `none` if `sep` does
not occur in `x`. -/
def splitOnce (sep : Bytes) : Bytes → Option (Bytes × Bytes)
  | [] => none
  | b :: bs =>
    if sep.isPrefixOf (b :: bs) then some ([], (b :: bs).drop sep.length)
    else
      match splitOnce sep bs with
      | none => none
      | some (a, r) => some (b :: a, r)

/-- Fuelled version of Python `bytes.split`: structural recursion on the
fuel keeps the function kernel-computable. -/
def pySplitF : Nat → Bytes → Bytes → List Bytes
  | 0, _, x => [x]
  | fuel + 1, sep, x =>
    match splitOnce sep x with
    | none => [x]
    | some (a, r) => a :: pySplitF fuel sep r

/-- Python `x.split(sep)` for a non-empty separator `sep`
(`b"A\rB\r".split(b"\r") == [b"A", b"B", b""]`). -/
def pySplit (sep x : Bytes) : List Bytes := pySplitF (x.length + 1) sep x

theorem isPrefixOf_iff_pre {l1 l2 : Bytes} :
    l1.isPrefixOf l2 = true ↔ l1 <+: l2 :=
  List.isPrefixOf_iff_prefix

theorem splitOnce_sep_length_le {sep : Bytes} :
    ∀ {x : Bytes} {p : Bytes × Bytes}, splitOnce sep x = some p → sep.length ≤ x.length := by
  intro x
  induction x with
  | nil => intro p h; simp [splitOnce] at h
  | cons b bs ih =>
    intro p h
    rw [splitOnce] at h
    by_cases hp : sep.isPrefixOf (b :: bs)
    · exact (isPrefixOf_iff_pre.mp hp).length_le
    · rw [if_neg hp] at h
      cases hr : splitOnce sep bs with
      | none => rw [hr] at h; simp at h
      | some q => exact (ih hr).trans (by simp)

theorem splitOnce_rest_length {sep : Bytes} (hs : sep ≠ []) :
    ∀ {x a r : Bytes}, splitOnce sep x = some (a, r) → r.length < x.length := by
  intro x
  induction x with
  | nil => intro a r h; simp [splitOnce] at h
  | cons b bs ih =>
    intro a r h
    rw [splitOnce] at h
    by_cases hp : sep.isPrefixOf (b :: bs)
    · rw [if_pos hp] at h
      have hle : sep.length ≤ (b :: bs).length :=
        (isPrefixOf_iff_pre.mp hp).length_le
      have hpos : 0 < sep.length := List.length_pos.mpr hs
      simp only [Option.some.injEq, Prod.mk.injEq] at h
      have hr : r = (b :: bs).drop sep.length := h.2.symm
      subst hr
      simp only [List.length_drop]
      simp at hle ⊢
      omega
    · rw [if_neg hp] at h
      cases hr : splitOnce sep bs with
      | none => rw [hr] at h; simp at h
      | some q =>
        rw [hr] at h
        obtain ⟨a', r'⟩ := q
        simp only [Option.some.injEq, Prod.mk.injEq] at h
        obtain ⟨h1, h2⟩ := h
        subst h2
        have := ih hr
        simp only [List.length_cons]
        omega

theorem prefix_of_append_of_le {sep x y : Bytes} (hle : sep.length ≤ x.length)
    (h : sep <+: x ++ y) : sep <+: x := by
  have ht := List.prefix_iff_eq_take.mp h
  rw [List.take_append_of_le_length hle] at ht
  rw [ht]
  exact List.take_prefix _ _

theorem splitOnce_append {sep : Bytes} :
    ∀ {x : Bytes} (y : Bytes) {a r : Bytes}, splitOnce sep x = some (a, r) →
      splitOnce sep (x ++ y) = some (a, r ++ y) := by
  intro x
  induction x with
  | nil => intro y a r h; simp [splitOnce] at h
  | cons b bs ih =>
    intro y a r h
    rw [splitOnce] at h
    by_cases hp : sep.isPrefixOf (b :: bs)
    · rw [if_pos hp] at h
      simp only [Option.some.injEq, Prod.mk.injEq] at h
      obtain ⟨h1, h2⟩ := h
      have hpre : sep <+: (b :: bs) := isPrefixOf_iff_pre.mp hp
      have hle : sep.length ≤ (b :: bs).length := hpre.length_le
      have hp2 : sep.isPrefixOf ((b :: bs) ++ y) :=
        isPrefixOf_iff_pre.mpr (hpre.trans (List.prefix_append _ _))
      rw [List.cons_append, splitOnce, if_pos (by rw [← List.cons_append]; exact hp2)]
      rw [← List.cons_append, List.drop_append_of_le_length hle]
      rw [← h1, ← h2]
    · rw [if_neg hp] at h
      cases hr : splitOnce sep bs with
      | none => rw [hr] at h; simp at h
      | some q =>
        rw [hr] at h
        obtain ⟨a', r'⟩ := q
        simp only [Option.some.injEq, Prod.mk.injEq] at h
        obtain ⟨h1, h2⟩ := h
        have hle : sep.length ≤ bs.length := splitOnce_sep_length_le hr
        have hp2 : ¬ sep.isPrefixOf ((b :: bs) ++ y) := by
          intro hcon
          exact hp (isPrefixOf_iff_pre.mpr
            (prefix_of_append_of_le (by simp; omega)
              (isPrefixOf_iff_pre.mp hcon)))
        rw [List.cons_append, splitOnce,
          if_neg (by rw [← List.cons_append]; exact hp2)]
        rw [ih y hr]
        rw [← h1, ← h2]

theorem pySplitF_fuel_congr {sep : Bytes} (hs : sep ≠ []) :
    ∀ (f g : Nat) (x : Bytes), x.length < f → x.length < g →
      pySplitF f sep x = pySplitF g sep x := by
  intro f
  induction f with
  | zero => intro g x hf; omega
  | succ f ih =>
    intro g x hf hg
    cases g with
    | zero => omega
    | succ g =>
      rw [pySplitF, pySplitF]
      cases h : splitOnce sep x with
      | none => rfl
      | some q =>
        obtain ⟨a, r⟩ := q
        have hr := splitOnce_rest_length hs h
        show a :: pySplitF f sep r = a :: pySplitF g sep r
        rw [ih g r (by omega) (by omega)]

/-- Unfolding equation for `pySplit` (non-empty separator). -/
theorem pySplit_eq {sep : Bytes} (hs : sep ≠ []) (x : Bytes) :
    pySplit sep x =
      match splitOnce sep x with
      | none => [x]
      | some (a, r) => a :: pySplit sep r := by
  rw [pySplit, pySplitF]
  cases h : splitOnce sep x with
  | none => rfl
  | some q =>
    obtain ⟨a, r⟩ := q
    have hr := splitOnce_rest_length hs h
    show a :: pySplitF x.length sep r = a :: pySplit sep r
    rw [pySplit, pySplitF_fuel_congr hs x.length (r.length + 1) r (by omega) (by omega)]

theorem pySplit_of_none {sep x : Bytes} (h : splitOnce sep x = none) :
    pySplit sep x = [x] := by
  rw [pySplit, pySplitF, h]

theorem pySplit_of_some {sep x a r : Bytes} (hs : sep ≠ [])
    (h : splitOnce sep x = some (a, r)) : pySplit sep x = a :: pySplit sep r := by
  rw [pySplit_eq hs, h]

theorem pySplit_ne_nil {sep x : Bytes} (hs : sep ≠ []) : pySplit sep x ≠ [] := by
  rw [pySplit_eq hs]
  cases h : splitOnce sep x with
  | none => simp
  | some q => obtain ⟨a, r⟩ := q; simp

theorem splitOnce_nil {sep : Bytes} : splitOnce sep [] = none := rfl

/-- The part of `x` before the first separator occurrence is a prefix of `x`. -/
theorem splitOnce_first_pre {sep : Bytes} :
    ∀ {x a r : Bytes}, splitOnce sep x = some (a, r) → a <+: x := by
  intro x
  induction x with
  | nil => intro a r h; simp [splitOnce] at h
  | cons b bs ih =>
    intro a r h
    rw [splitOnce] at h
    by_cases hp : sep.isPrefixOf (b :: bs)
    · rw [if_pos hp] at h
      simp only [Option.some.injEq, Prod.mk.injEq] at h
      rw [← h.1]
      exact List.nil_prefix
    · rw [if_neg hp] at h
      cases hr : splitOnce sep bs with
      | none => rw [hr] at h; simp at h
      | some q =>
        rw [hr] at h
        obtain ⟨a', r'⟩ := q
        simp only [Option.some.injEq, Prod.mk.injEq] at h
        rw [← h.1]
        obtain ⟨t, ht⟩ := ih hr
        exact ⟨t, by rw [List.cons_append, ht]⟩

/-- The part of `x` before the first separator occurrence contains no
occurrence of the separator itself. -/
theorem splitOnce_first_none {sep : Bytes} :
    ∀ {x a r : Bytes}, splitOnce sep x = some (a, r) → splitOnce sep a = none := by
  intro x
  induction x with
  | nil => intro a r h; simp [splitOnce] at h
  | cons b bs ih =>
    intro a r h
    rw [splitOnce] at h
    by_cases hp : sep.isPrefixOf (b :: bs)
    · rw [if_pos hp] at h
      simp only [Option.some.injEq, Prod.mk.injEq] at h
      rw [← h.1]
      exact splitOnce_nil
    · rw [if_neg hp] at h
      cases hr : splitOnce sep bs with
      | none => rw [hr] at h; simp at h
      | some q =>
        rw [hr] at h
        obtain ⟨a', r'⟩ := q
        simp only [Option.some.injEq, Prod.mk.injEq] at h
        rw [← h.1]
        rw [splitOnce]
        have hnp : ¬ sep.isPrefixOf (b :: a') := by
          intro hcon
          have hpre : b :: a' <+: b :: bs := by
            obtain ⟨t, ht⟩ := splitOnce_first_pre hr
            exact ⟨t, by rw [List.cons_append, ht]⟩
          exact hp (isPrefixOf_iff_pre.mpr
            ((isPrefixOf_iff_pre.mp hcon).trans hpre))
        rw [if_neg hnp, ih hr]

theorem getLastD_congr {l : List Bytes} (h : l ≠ []) (d1 d2 : Bytes) :
    l.getLastD d1 = l.getLastD d2 := by
  cases l with
  | nil => exact absurd rfl h
  | cons a t =>
    rw [List.getLastD_cons, List.getLastD_cons]

theorem dropLast_cons_ne_nil {a : Bytes} {l : List Bytes} (h : l ≠ []) :
    (a :: l).dropLast = a :: l.dropLast := by
  cases l with
  | nil => exact absurd rfl h
  | cons b t => rfl

theorem getLastD_cons_ne_nil {a d : Bytes} {l : List Bytes} (h : l ≠ []) :
    (a :: l).getLastD d = l.getLastD d := by
  cases l with
  | nil => exact absurd rfl h
  | cons b t => rfl

/-- Chunking lemma for Python split: splitting `x ++ y` first yields all the
complete segments of `x`, then the segments of the remainder of `x`
re-joined with `y`. -/
theorem pySplit_append {sep : Bytes} (hs : sep ≠ []) :
    ∀ (n : Nat) (x y : Bytes), x.length ≤ n →
      pySplit sep (x ++ y) =
        (pySplit sep x).dropLast ++ pySplit sep ((pySplit sep x).getLastD [] ++ y) := by
  intro n
  induction n with
  | zero =>
    intro x y hx
    have hx0 : x = [] := List.eq_nil_of_length_eq_zero (Nat.le_zero.mp hx)
    subst hx0
    rw [pySplit_of_none splitOnce_nil]
    simp
  | succ n ih =>
    intro x y hx
    cases h : splitOnce sep x with
    | none =>
      rw [pySplit_of_none h]
      simp
    | some q =>
      obtain ⟨a, r⟩ := q
      have hr := splitOnce_rest_length hs h
      have hxy : splitOnce sep (x ++ y) = some (a, r ++ y) := splitOnce_append y h
      rw [pySplit_of_some hs hxy, pySplit_of_some hs h]
      have hne : pySplit sep r ≠ [] := pySplit_ne_nil hs
      rw [dropLast_cons_ne_nil hne, getLastD_cons_ne_nil hne]
      rw [List.cons_append]
      rw [ih r y (by omega)]

/-- The last segment of a Python split contains no further separator
occurrence. -/
theorem pySplit_getLastD_none {sep : Bytes} (hs : sep ≠ []) :
    ∀ (n : Nat) (x : Bytes), x.length ≤ n →
      splitOnce sep ((pySplit sep x).getLastD []) = none := by
  intro n
  induction n with
  | zero =>
    intro x hx
    have hx0 : x = [] := List.eq_nil_of_length_eq_zero (Nat.le_zero.mp hx)
    subst hx0
    rw [pySplit_of_none splitOnce_nil]
    exact splitOnce_nil
  | succ n ih =>
    intro x hx
    cases h : splitOnce sep x with
    | none =>
      rw [pySplit_of_none h]
      simpa using h
    | some q =>
      obtain ⟨a, r⟩ := q
      have hr := splitOnce_rest_length hs h
      rw [pySplit_of_some hs h, getLastD_cons_ne_nil (pySplit_ne_nil hs)]
      exact ih r (by omega)

/-- Every segment produced by a Python split is free of separator
occurrences. -/
theorem pySplit_mem_none {sep : Bytes} (hs : sep ≠ []) :
    ∀ (n : Nat) (x m : Bytes), x.length ≤ n → m ∈ pySplit sep x →
      splitOnce sep m = none := by
  intro n
  induction n with
  | zero =>
    intro x m hx hm
    have hx0 : x = [] := List.eq_nil_of_length_eq_zero (Nat.le_zero.mp hx)
    subst hx0
    rw [pySplit_of_none splitOnce_nil] at hm
    simp at hm
    subst hm
    exact splitOnce_nil
  | succ n ih =>
    intro x m hx hm
    cases h : splitOnce sep x with
    | none =>
      rw [pySplit_of_none h] at hm
      simp at hm
      subst hm
      exact h
    | some q =>
      obtain ⟨a, r⟩ := q
      have hr := splitOnce_rest_length hs h
      rw [pySplit_of_some hs h] at hm
      rcases List.mem_cons.mp hm with hm | hm
      · subst hm
        exact splitOnce_first_none h
      · exact ih r m (by omega) hm

/-! ## LineProtocol.read_messages (src/sinstruments/simulator.py lines 106-125) -/

/-- Python `for line in channel` over a binary stream with content `s`
(`readline` iteration): each yielded line ends with the newline byte 10,
except for a possibly unterminated trailing partial line, which is also
yielded.  Used by `LineProtocol.read_messages` in the `nl == b'\n'` fast
path via `transport.ireadlines`. -/
def pyLinesF : Nat → Bytes → List Bytes
  | 0, _ => []
  | fuel + 1, s =>
    match splitOnce [10] s with
    | none => if s = [] then [] else [s]
    | some (a, r) => (a ++ [10]) :: pyLinesF fuel r

def pyLines (s : Bytes) : List Bytes := pyLinesF (s.length + 1) s

/-- The custom-terminator branch of `LineProtocol.read_messages`: repeatedly
read a chunk (`transport.read1`), stop at EOF (`if not readout: return`,
modelled by the chunk list ending or by an empty chunk), accumulate into
`buff`, split on the terminator `nl`, keep the trailing segment as the new
buffer and yield every other non-empty segment. -/
def read_messages_custom (nl : Bytes) : List Bytes → Bytes → List Bytes
  | [], _ => []
  | c :: cs, buff =>
    if c = [] then []
    else
      (pySplit nl (buff ++ c)).dropLast.filter (fun l => !l.isEmpty) ++
        read_messages_custom nl cs ((pySplit nl (buff ++ c)).getLastD [])

/-- `LineProtocol.read_messages`: the message sequence produced for a
device with terminator `nl` from the successive chunks delivered by the
transport.  When `nl == b'\n'` the code takes the `ireadlines` fast path
(per-line reads, chunk boundaries invisible); otherwise it runs the
buffering loop. -/
def read_messages (nl : Bytes) (chunks : List Bytes) : List Bytes :=
  if nl = [10] then pyLines chunks.flatten else read_messages_custom nl chunks []

/-- Modelled from the spec claim C1: the result of splitting the whole
stream on the terminator and discarding empty segments. -/
def specSplitMessages (nl s : Bytes) : List Bytes :=
  (pySplit nl s).filter (fun l => !l.isEmpty)

theorem read_messages_custom_invariant {nl : Bytes} (hs : nl ≠ []) :
    ∀ (chunks : List Bytes) (buff : Bytes), (∀ c ∈ chunks, c ≠ []) →
      splitOnce nl buff = none →
      read_messages_custom nl chunks buff =
        (pySplit nl (buff ++ chunks.flatten)).dropLast.filter (fun l => !l.isEmpty) := by
  intro chunks
  induction chunks with
  | nil =>
    intro buff hch hb
    rw [read_messages_custom]
    rw [List.flatten_nil, List.append_nil, pySplit_of_none hb]
    simp
  | cons c cs ih =>
    intro buff hch hb
    have hc : c ≠ [] := hch c (List.mem_cons_self c cs)
    rw [read_messages_custom, if_neg hc]
    have hlast : splitOnce nl ((pySplit nl (buff ++ c)).getLastD []) = none :=
      pySplit_getLastD_none hs (buff ++ c).length _ le_rfl
    rw [ih _ (fun d hd => hch d (List.mem_cons_of_mem c hd)) hlast]
    rw [List.flatten_cons, ← List.append_assoc]
    rw [pySplit_append hs (buff ++ c).length (buff ++ c) cs.flatten le_rfl]
    have hne : pySplit nl ((pySplit nl (buff ++ c)).getLastD [] ++ cs.flatten) ≠ [] :=
      pySplit_ne_nil hs
    rw [List.dropLast_append_of_ne_nil _ hne, List.filter_append]

/-- C1 (amended): in delimited-framing mode with a terminator `nl` other
than `b'\n'` (the buffering branch of `LineProtocol.read_messages`; the
repository has no special-message handling), the sequence of messages
delivered to the device handler equals the result of splitting the whole
byte stream on the terminator and discarding both the trailing
unterminated remainder and all empty segments; no delivered message
contains the terminator, and the result is the same for every way the
input is chunked into non-empty reads. -/
theorem C1_custom_framing (nl : Bytes) (chunks : List Bytes)
    (hnl : nl ≠ []) (hfast : nl ≠ [10]) (hch : ∀ c ∈ chunks, c ≠ []) :
    read_messages nl chunks
        = (pySplit nl chunks.flatten).dropLast.filter (fun l => !l.isEmpty)
    ∧ (∀ m ∈ read_messages nl chunks, splitOnce nl m = none)
    ∧ (∀ chunks' : List Bytes, (∀ c ∈ chunks', c ≠ []) →
        chunks'.flatten = chunks.flatten →
        read_messages nl chunks' = read_messages nl chunks) := by
  have key : ∀ (ch : List Bytes), (∀ c ∈ ch, c ≠ []) →
      read_messages nl ch
        = (pySplit nl ch.flatten).dropLast.filter (fun l => !l.isEmpty) := by
    intro ch hc
    rw [read_messages, if_neg hfast]
    rw [read_messages_custom_invariant hnl ch [] hc splitOnce_nil]
    rw [List.nil_append]
  refine ⟨key chunks hch, ?_, ?_⟩
  · intro m hm
    rw [key chunks hch] at hm
    have hm2 : m ∈ (pySplit nl chunks.flatten).dropLast := List.mem_of_mem_filter hm
    have hm3 : m ∈ pySplit nl chunks.flatten := List.dropLast_subset _ hm2
    exact pySplit_mem_none hnl chunks.flatten.length _ _ le_rfl hm3
  · intro chunks' hch' hflat
    rw [key chunks' hch', key chunks hch, hflat]

/-- C1 counterexample: the claim as stated fails on the code in two ways.
With terminator `b'\r'` and stream `b"A\rB"`, splitting on the terminator
and discarding empty segments gives two messages, but the code delivers
only one (the unterminated trailing segment is dropped); with terminator
`b'\n'` and stream `b"A\n"` the fast path delivers the line with its
terminator still attached, unlike the claimed terminator-free split. -/
theorem C1_counterexample :
    read_messages [13] [[65, 13, 66]] = [[65]]
    ∧ specSplitMessages [13] [65, 13, 66] = [[65], [66]]
    ∧ read_messages [13] [[65, 13, 66]] ≠ specSplitMessages [13] [65, 13, 66]
    ∧ read_messages [10] [[65, 10]] = [[65, 10]]
    ∧ specSplitMessages [10] [65, 10] = [[65]]
    ∧ read_messages [10] [[65, 10]] ≠ specSplitMessages [10] [65, 10] := by
  decide

/-- C1 witness: the amended statement evaluated on the terminator `b'\r'`
and the chunked stream `b"A\r" / b"B\r"`. -/
theorem C1_witness : read_messages [13] [[65, 13], [66, 13]] = [[65], [66]] := by
  rw [(C1_custom_framing [13] [[65, 13], [66, 13]] (by decide) (by decide)
    (by decide)).1]
  decide

/-- Modelled from the spec: the special-message handling required by §4.3
(delimited framing with out-of-band tokens) but absent from
`src/sinstruments/simulator.py` — bytes accumulate into a buffer; if the
buffer equals a configured special message verbatim it is emitted
immediately and the buffer reset; otherwise the buffer is split on the
terminator, complete non-empty segments are emitted and the remainder
retained. -/
def spec_read_messages_special (nl : Bytes) (specials : List Bytes) :
    Bytes → Bytes → List Bytes
  | [], _ => []
  | b :: rest, buff =>
    if (buff ++ [b]) ∈ specials then
      (buff ++ [b]) :: spec_read_messages_special nl specials rest []
    else
      (pySplit nl (buff ++ [b])).dropLast.filter (fun l => !l.isEmpty) ++
        spec_read_messages_special nl specials rest
          ((pySplit nl (buff ++ [b])).getLastD [])

/-- C2: evaluating the code at the AH501D configuration (terminator
`b'\r'`, special message `b"S"`, byte 83): when a client sends the bare
special message with no terminator, `LineProtocol.read_messages` emits no
message at all (the byte stays in the buffer and is discarded at EOF),
whereas the specified special-message handling emits exactly one message
`b"S"`.  The code never consults `special_messages`. -/
theorem C2_special_message_not_emitted :
    read_messages [13] [[83]] = []
    ∧ spec_read_messages_special [13] [[83]] [83] [] = [[83]]
    ∧ read_messages [13] [[83]] ≠ spec_read_messages_special [13] [[83]] [83] [] := by
  decide

/-- C6: when the input ends while the buffering branch of
`LineProtocol.read_messages` holds a non-empty partial message with no
terminator (a final read `r` that leaves the accumulation buffer without
any terminator occurrence), that partial buffer is discarded: the
delivered message sequence is exactly the one obtained without the
trailing partial data, and the loop terminates. -/
theorem C6_partial_buffer_discarded (nl : Bytes) (chunks : List Bytes) (r : Bytes)
    (hnl : nl ≠ []) (hch : ∀ c ∈ chunks, c ≠ []) (hr : r ≠ [])
    (hpart : splitOnce nl ((pySplit nl chunks.flatten).getLastD [] ++ r) = none) :
    read_messages_custom nl (chunks ++ [r]) [] = read_messages_custom nl chunks [] := by
  have hch' : ∀ c ∈ chunks ++ [r], c ≠ [] := by
    intro c hc
    rcases List.mem_append.mp hc with hc | hc
    · exact hch c hc
    · simp at hc
      subst hc
      exact hr
  rw [read_messages_custom_invariant hnl _ [] hch' splitOnce_nil]
  rw [read_messages_custom_invariant hnl _ [] hch splitOnce_nil]
  rw [List.nil_append, List.nil_append]
  rw [List.flatten_append, List.flatten_cons, List.flatten_nil, List.append_nil]
  rw [pySplit_append hnl chunks.flatten.length _ _ le_rfl]
  rw [pySplit_of_none hpart]
  rw [List.dropLast_append_of_ne_nil _ (by simp)]
  simp

/-- C6 witness: stream `b"A\r"` followed by a final unterminated read
`b"B"`; the delivered messages are exactly those of `b"A\r"` alone. -/
theorem C6_witness : read_messages_custom [13] [[65, 13], [66]] [] = [[65]] := by
  have h := C6_partial_buffer_discarded [13] [[65, 13]] [66] (by decide)
    (by decide) (by decide) (by decide)
  exact h.trans (by decide)

/-! ## MessageProtocol.handle_message (lines 61-94): reply dispatch -/

/-- A device handler is either a plain function returning at most one
reply, or a generator function producing an ordered finite sequence of
(possibly `None`) replies. -/
inductive HandlerFn
  | single (f : Bytes → Option Bytes)
  | generator (f : Bytes → List (Option Bytes))

/-- The test performed once in `BaseProtocol.__init__`:
`inspect.isgeneratorfunction(self.device.handle_message)`. -/
def isgeneratorfunction : HandlerFn → Bool
  | .single _ => false
  | .generator _ => true

structure PDevice where
  handle_message : HandlerFn

/-- `BaseProtocol` state relevant to dispatch: the device and the
`is_generator` flag computed at construction. -/
structure BaseProtocol where
  device : PDevice
  is_generator : Bool

/-- `BaseProtocol.__init__`. -/
def BaseProtocol.init (d : PDevice) : BaseProtocol :=
  ⟨d, isgeneratorfunction d.handle_message⟩

/-- Observable channel-level events during one `handle_message` dispatch:
a reply value produced by the device handler, or bytes written to the
channel via `transport.send`. -/
inductive ChanEvent
  | produced (r : Option Bytes)
  | write (d : Bytes)
deriving DecidableEq

def callGenerator : HandlerFn → Bytes → List (Option Bytes)
  | .generator f, m => f m
  | .single f, m => [f m]

def callSingle : HandlerFn → Bytes → Option Bytes
  | .single f, m => f m
  | .generator _, _ => none

/-- The generator branch of `MessageProtocol.handle_message`:
`for reply in self.device.handle_message(message): if reply is not None:
self.transport.send(self.channel, reply)` — each reply is sent as soon as
it is produced. -/
def sendLoop : List (Option Bytes) → List ChanEvent
  | [] => []
  | r :: rest =>
    ChanEvent.produced r ::
      (match r with
       | none => sendLoop rest
       | some x => ChanEvent.write x :: sendLoop rest)

/-- `MessageProtocol.handle_message`: the event trace of dispatching one
decoded message. -/
def MessageProtocol.handle_message (p : BaseProtocol) (m : Bytes) : List ChanEvent :=
  if p.is_generator then sendLoop (callGenerator p.device.handle_message m)
  else
    ChanEvent.produced (callSingle p.device.handle_message m) ::
      (match callSingle p.device.handle_message m with
       | none => []
       | some x => [ChanEvent.write x])

/-- The bytes actually written to the channel during a dispatch. -/
def channelWrites (evs : List ChanEvent) : List Bytes :=
  evs.filterMap fun e =>
    match e with
    | ChanEvent.write d => some d
    | ChanEvent.produced _ => none

theorem sendLoop_interleaved (rs : List (Option Bytes)) :
    sendLoop rs = rs.flatMap fun r => ChanEvent.produced r :: r.toList.map ChanEvent.write := by
  induction rs with
  | nil => rfl
  | cons r rest ih =>
    cases r with
    | none => simp [sendLoop, ih]
    | some x => simp [sendLoop, ih]

theorem channelWrites_sendLoop (rs : List (Option Bytes)) :
    channelWrites (sendLoop rs) = rs.filterMap id := by
  induction rs with
  | nil => rfl
  | cons r rest ih =>
    cases r with
    | none => simp [sendLoop, channelWrites, List.filterMap_cons] at ih ⊢; exact ih
    | some x => simp [sendLoop, channelWrites, List.filterMap_cons] at ih ⊢; exact ih

/-- C3: protocol dispatch accepts all three handler result shapes.  For a
plain handler, a `None` result writes nothing and a single reply is
written exactly once; for a generator handler, every non-`None` reply is
written, in production order, each write immediately following the
production of its reply (interleaved, not buffered at the end). -/
theorem C3_dispatch_shapes (f : Bytes → Option Bytes)
    (g : Bytes → List (Option Bytes)) (m : Bytes) :
    channelWrites (MessageProtocol.handle_message (BaseProtocol.init ⟨HandlerFn.single f⟩) m)
        = (f m).toList
    ∧ MessageProtocol.handle_message (BaseProtocol.init ⟨HandlerFn.generator g⟩) m
        = (g m).flatMap (fun r => ChanEvent.produced r :: r.toList.map ChanEvent.write)
    ∧ channelWrites (MessageProtocol.handle_message (BaseProtocol.init ⟨HandlerFn.generator g⟩) m)
        = (g m).filterMap id := by
  refine ⟨?_, ?_, ?_⟩
  · cases hf : f m with
    | none =>
      simp [MessageProtocol.handle_message, BaseProtocol.init, isgeneratorfunction,
        callSingle, channelWrites, hf]
    | some x =>
      simp [MessageProtocol.handle_message, BaseProtocol.init, isgeneratorfunction,
        callSingle, channelWrites, hf]
  · have h1 : MessageProtocol.handle_message
        (BaseProtocol.init ⟨HandlerFn.generator g⟩) m = sendLoop (g m) := rfl
    rw [h1]
    exact sendLoop_interleaved (g m)
  · have h1 : MessageProtocol.handle_message
        (BaseProtocol.init ⟨HandlerFn.generator g⟩) m = sendLoop (g m) := rfl
    rw [h1]
    exact channelWrites_sendLoop (g m)

/-! ## delay (lines 43-56) and transport send/read primitives -/

/-- The `delay` function: sleep duration in seconds.  `if not baudrate:
return` covers both an unset (`None`) and a zero baud rate; otherwise the
sleep time is `nb_bytes / (baudrate / 10.0)`. -/
def delay (nb_bytes : Nat) (baudrate : Option ℚ) : ℚ :=
  match baudrate with
  | none => 0
  | some b => if b = 0 then 0 else (nb_bytes : ℚ) / (b / 10)

/-- C4: `delay` is a no-op (zero sleep) when the baud rate is unset or
zero, and otherwise sleeps exactly `n / (b / 10)` seconds;
`delay 1000 9600 = 25/24 ≈ 1.04 s` (within 0.01 of 1.04). -/
theorem C4_delay (n : Nat) (b : ℚ) :
    delay n none = 0
    ∧ delay n (some 0) = 0
    ∧ (b ≠ 0 → delay n (some b) = (n : ℚ) / (b / 10))
    ∧ delay 1000 (some 9600) = 25 / 24
    ∧ |delay 1000 (some 9600) - 104 / 100| < 1 / 100 := by
  refine ⟨rfl, by simp [delay], fun hb => by simp [delay, hb], by norm_num [delay], ?_⟩
  rw [show delay 1000 (some 9600) = 25 / 24 by norm_num [delay]]
  rw [abs_sub_lt_iff]
  norm_num

/-- C4 witness: `delay` evaluated at a non-zero baud rate. -/
theorem C4_witness :
    delay 3 (some 9600) = 1 / 320 ∧ delay 1000 (some 9600) = 25 / 24 := by
  constructor
  · rw [(C4_delay 3 9600).2.2.1 (by norm_num)]
    norm_num
  · exact (C4_delay 1000 9600).2.2.2.1

/-- An observable transport-level effect: a cooperative sleep produced by
the delay model, or bytes written out. -/
inductive IOEffect
  | sleep (t : ℚ)
  | write (d : Bytes)
deriving DecidableEq

/-- `SerialServer.send` (lines 229-231): `delay(len(data), baudrate=...)`
then `os.write(channel.fileno(), data)`. -/
def SerialServer.send (baudrate : Option ℚ) (data : Bytes) : List IOEffect :=
  [IOEffect.sleep (delay data.length baudrate), IOEffect.write data]

/-- `TCPServer.send` (lines 273-274): `channel.write(data)` — no delay. -/
def TCPServer.send (data : Bytes) : List IOEffect :=
  [IOEffect.write data]

/-- `UDPServer.send` (lines 299-302): `socket.sendto` until all bytes are
sent — no delay. -/
def UDPServer.send (data : Bytes) : List IOEffect :=
  [IOEffect.write data]

/-- `SimulatorServerMixin.read1` (lines 160-163): read a chunk, then
`delay(len(data), baudrate=self.baudrate)`; returns the effects and the
data handed to the protocol. -/
def SimulatorServerMixin.read1 (baudrate : Option ℚ) (data : Bytes) :
    List IOEffect × Bytes :=
  ([IOEffect.sleep (delay data.length baudrate)], data)

/-- One request/reply exchange over the serial transport: the protocol
reads the incoming message via the mixin's delayed read, then replies via
`SerialServer.send`. -/
def serialExchange (b : Option ℚ) (msg reply : Bytes) : List IOEffect :=
  (SimulatorServerMixin.read1 b msg).1 ++ SerialServer.send b reply

/-- One request/reply exchange over TCP: delayed read via the mixin, then
`TCPServer.send` (no delay before the write). -/
def tcpExchange (b : Option ℚ) (msg reply : Bytes) : List IOEffect :=
  (SimulatorServerMixin.read1 b msg).1 ++ TCPServer.send reply

/-- One request/reply exchange over UDP: `UDPServer.handle` hands the
datagram straight to `handle_message` (no read-side delay) and the reply
goes through `UDPServer.send` (no delay either). -/
def udpExchange (reply : Bytes) : List IOEffect :=
  UDPServer.send reply

/-- Number of delay-model invocations visible in an effect trace. -/
def countSleeps (l : List IOEffect) : Nat :=
  (l.filter fun e =>
    match e with
    | IOEffect.sleep _ => true
    | IOEffect.write _ => false).length

/-- C5 counterexample: with baud rate 9600, one request/reply exchange
invokes the delay model twice on the serial transport but only once on
TCP (the reply is written with no delay) and never on UDP — the claim
that all three transports delay both the incoming message and each reply
is false. -/
theorem C5_counterexample :
    countSleeps (serialExchange (some 9600) [80, 73] [79, 75]) = 2
    ∧ countSleeps (tcpExchange (some 9600) [80, 73] [79, 75]) ≠ 2
    ∧ countSleeps (udpExchange [79, 75]) ≠ 2
    ∧ TCPServer.send [79, 75] = [IOEffect.write [79, 75]]
    ∧ delay 2 (some 9600) ≠ 0 := by
  refine ⟨rfl, by decide, by decide, rfl, by norm_num [delay]⟩

/-- C5 (amended): every transport that reads a byte stream (Serial, TCP)
invokes the delay model once with the byte length of each incoming read;
only the Serial transport invokes it a second time with the byte length
of a reply before writing it; TCP writes replies with no delay, and UDP
neither delays the incoming datagram nor the reply. -/
theorem C5_delay_invocations (b : Option ℚ) (msg reply : Bytes) :
    serialExchange b msg reply
        = [IOEffect.sleep (delay msg.length b),
           IOEffect.sleep (delay reply.length b), IOEffect.write reply]
    ∧ tcpExchange b msg reply
        = [IOEffect.sleep (delay msg.length b), IOEffect.write reply]
    ∧ udpExchange reply = [IOEffect.write reply]
    ∧ countSleeps (serialExchange b msg reply) = 2
    ∧ countSleeps (tcpExchange b msg reply) = 1
    ∧ countSleeps (udpExchange reply) = 0 := by
  refine ⟨rfl, rfl, rfl, ?_, ?_, rfl⟩
  · rw [show serialExchange b msg reply
      = [IOEffect.sleep (delay msg.length b),
         IOEffect.sleep (delay reply.length b), IOEffect.write reply] from rfl]
    rfl
  · rfl

/-! ## Server device registration (lines 355-395, 423-454) -/

/-- The declarative entry for one device; only the `name` key matters for
the registration logic (`device_info["name"]` raises `KeyError` when the
key is missing, which the per-device handler also catches). -/
structure DeviceInfo where
  name : Option String
deriving DecidableEq

/-- An abstract constructed device. -/
abbrev DeviceObj := String

/-- The server's `self.devices` mapping, in insertion order. -/
abbrev ServerState := List (String × DeviceObj)

/-- `Server.create_device` (lines 386-395): look up the name (`KeyError`
if absent), `assert name not in self.devices`, build the device via the
module-level `create_device` (abstracted as the fallible `create`
argument) and register it. -/
def Server.create_device (create : DeviceInfo → Except String DeviceObj)
    (st : ServerState) (info : DeviceInfo) : Except String ServerState :=
  match info.name with
  | none => Except.error "KeyError: name"
  | some name =>
    if (st.lookup name).isSome then Except.error "AssertionError"
    else
      match create info with
      | Except.error e => Except.error e
      | Except.ok dev => Except.ok (st ++ [(name, dev)])

/-- The body of the `try/except` in the device loop of `Server.__init__`:
a successful creation yields the new state, any error leaves the state
unchanged (logged and skipped). -/
def regStep (create : DeviceInfo → Except String DeviceObj)
    (st : ServerState) (info : DeviceInfo) : ServerState :=
  match Server.create_device create st info with
  | Except.ok st2 => st2
  | Except.error _ => st

/-- The device loop of `Server.__init__` (lines 374-384). -/
def Server.init_devices (create : DeviceInfo → Except String DeviceObj)
    (devices : List DeviceInfo) : ServerState :=
  devices.foldl (regStep create) []

theorem lookup_none_iff_not_mem (l : ServerState) (k : String) :
    l.lookup k = none ↔ k ∉ l.map Prod.fst := by
  induction l with
  | nil => simp
  | cons p t ih =>
    obtain ⟨a, b⟩ := p
    by_cases hk : k = a
    · subst hk
      simp [List.lookup]
    · have hb : (k == a) = false := beq_false_of_ne hk
      rw [List.lookup, hb]
      simp only [List.map_cons, List.mem_cons]
      rw [ih]
      constructor
      · intro hn hcon
        rcases hcon with hcon | hcon
        · exact hk hcon
        · exact hn hcon
      · intro hn hcon
        exact hn (Or.inr hcon)

theorem lookup_append_left {l l2 : ServerState} {k : String}
    {v : DeviceObj} (h : l.lookup k = some v) : (l ++ l2).lookup k = some v := by
  induction l with
  | nil => simp [List.lookup] at h
  | cons p t ih =>
    obtain ⟨a, b⟩ := p
    rw [List.lookup] at h
    rw [List.cons_append, List.lookup]
    cases hk : k == a
    · rw [hk] at h
      exact ih h
    · rw [hk] at h
      exact h

/-- Inversion of a successful `Server.create_device`: the entry had a
name, the name was not yet registered (the assertion passed), the
constructor succeeded, and the new state appends the binding. -/
theorem create_device_ok_inv {create : DeviceInfo → Except String DeviceObj}
    {st st2 : ServerState} {info : DeviceInfo}
    (h : Server.create_device create st info = Except.ok st2) :
    ∃ name dev, info.name = some name ∧ st.lookup name = none ∧
      create info = Except.ok dev ∧ st2 = st ++ [(name, dev)] := by
  cases hn : info.name with
  | none => simp [Server.create_device, hn] at h
  | some name =>
    by_cases hmem : (st.lookup name).isSome
    · simp [Server.create_device, hn, hmem] at h
    · cases hc : create info with
      | error e => simp [Server.create_device, hn, hmem, hc] at h
      | ok dev =>
        simp [Server.create_device, hn, hmem, hc] at h
        exact ⟨name, dev, rfl, Option.not_isSome_iff_eq_none.mp hmem, rfl, h.symm⟩

/-- Once a name is registered, every later registration step preserves
its binding (the map is append-only and the assertion blocks
overwrites). -/
theorem init_devices_lookup_mono (create : DeviceInfo → Except String DeviceObj) :
    ∀ (ds : List DeviceInfo) (st : ServerState) (k : String) (v : DeviceObj),
      st.lookup k = some v → (ds.foldl (regStep create) st).lookup k = some v := by
  intro ds
  induction ds with
  | nil => intro st k v h; exact h
  | cons d t ih =>
    intro st k v h
    rw [List.foldl_cons]
    apply ih
    cases hcd : Server.create_device create st d with
    | error e =>
      rw [regStep, hcd]
      exact h
    | ok st2 =>
      obtain ⟨name, dev, hn, hfree, hc, hst2⟩ := create_device_ok_inv hcd
      rw [regStep, hcd]
      show st2.lookup k = some v
      rw [hst2]
      exact lookup_append_left h

/-- Each registration step keeps the name keys of the device map
duplicate-free. -/
theorem init_devices_nodup_aux (create : DeviceInfo → Except String DeviceObj) :
    ∀ (ds : List DeviceInfo) (st : ServerState),
      (st.map Prod.fst).Nodup →
      ((ds.foldl (regStep create) st).map Prod.fst).Nodup := by
  intro ds
  induction ds with
  | nil => intro st h; exact h
  | cons d t ih =>
    intro st h
    rw [List.foldl_cons]
    apply ih
    cases hcd : Server.create_device create st d with
    | error e =>
      rw [regStep, hcd]
      exact h
    | ok st2 =>
      obtain ⟨name, dev, hn, hfree, hc, hst2⟩ := create_device_ok_inv hcd
      rw [regStep, hcd]
      show (st2.map Prod.fst).Nodup
      rw [hst2, List.map_append, List.nodup_append]
      refine ⟨h, by simp, ?_⟩
      intro a ha hb
      simp at hb
      subst hb
      exact (lookup_none_iff_not_mem _ _).mp hfree ha

/-- An entry whose creation errors at its position in the fold is a
no-op: the final state is that of the list without it. -/
theorem init_devices_skip_error (create : DeviceInfo → Except String DeviceObj)
    (xs ys : List DeviceInfo) (bad : DeviceInfo) (e : String)
    (hb : Server.create_device create (Server.init_devices create xs) bad
      = Except.error e) :
    Server.init_devices create (xs ++ bad :: ys)
      = Server.init_devices create (xs ++ ys) := by
  rw [Server.init_devices, Server.init_devices, List.foldl_append, List.foldl_append]
  rw [List.foldl_cons]
  rw [show List.foldl (regStep create) ([] : ServerState) xs
    = Server.init_devices create xs from rfl]
  rw [show regStep create (Server.init_devices create xs) bad
    = Server.init_devices create xs by rw [regStep, hb]]

/-- C7: a device entry whose creation fails (any exception: missing name
key, duplicate-name assertion, or a failing constructor) is caught and
skipped by `Server.__init__`: the resulting server is exactly the one
built from the remaining entries, so every other valid device is still
constructed and registered, and construction never propagates the
per-device error (the registration fold is total). -/
theorem C7_failed_device_skipped (create : DeviceInfo → Except String DeviceObj)
    (xs ys : List DeviceInfo) (bad : DeviceInfo) (e : String)
    (hb : Server.create_device create (Server.init_devices create xs) bad
      = Except.error e) :
    Server.init_devices create (xs ++ bad :: ys)
      = Server.init_devices create (xs ++ ys) :=
  init_devices_skip_error create xs ys bad e hb

/-- A concrete fallible device constructor used by the witnesses. -/
def createW : DeviceInfo → Except String DeviceObj
  | ⟨some n⟩ => if n = "bad" then Except.error "boom" else Except.ok n
  | ⟨none⟩ => Except.error "no name"

/-- C7 witness: a failing middle entry is skipped and the two valid
devices around it are both registered. -/
theorem C7_witness :
    Server.init_devices createW [⟨some "a"⟩, ⟨some "bad"⟩, ⟨some "c"⟩]
      = Server.init_devices createW [⟨some "a"⟩, ⟨some "c"⟩]
    ∧ Server.init_devices createW [⟨some "a"⟩, ⟨some "bad"⟩, ⟨some "c"⟩]
      = [("a", "a"), ("c", "c")] := by
  constructor
  · exact C7_failed_device_skipped createW [⟨some "a"⟩] [⟨some "c"⟩] ⟨some "bad"⟩
      "boom" (by rfl)
  · rfl

/-- C10: the device map never holds two devices under one name.  The
name keys are always duplicate-free; and when a later entry repeats the
name of an already-registered device, its creation fails the uniqueness
assertion, the failure is absorbed by the per-device handler (server
construction is the same as if the duplicate entry were absent), and the
first device under that name stays registered. -/
theorem C10_unique_names (create : DeviceInfo → Except String DeviceObj)
    (xs ys : List DeviceInfo) (dup : DeviceInfo) (n : String) (v : DeviceObj)
    (hn : dup.name = some n)
    (hreg : (Server.init_devices create xs).lookup n = some v) :
    (∀ ds : List DeviceInfo, ((Server.init_devices create ds).map Prod.fst).Nodup)
    ∧ Server.init_devices create (xs ++ dup :: ys)
        = Server.init_devices create (xs ++ ys)
    ∧ (Server.init_devices create (xs ++ dup :: ys)).lookup n = some v := by
  have hdup : Server.create_device create (Server.init_devices create xs) dup
      = Except.error "AssertionError" := by
    simp [Server.create_device, hn, hreg]
  have hskip := init_devices_skip_error create xs ys dup "AssertionError" hdup
  refine ⟨fun ds => init_devices_nodup_aux create ds [] (by simp), hskip, ?_⟩
  rw [hskip]
  rw [Server.init_devices, List.foldl_append]
  exact init_devices_lookup_mono create ys _ n v hreg

/-- C10 witness: a duplicate entry for name `a` is rejected and the
first `a` device stays registered. -/
theorem C10_witness :
    Server.init_devices createW [⟨some "a"⟩, ⟨some "a"⟩, ⟨some "c"⟩]
      = Server.init_devices createW [⟨some "a"⟩, ⟨some "c"⟩]
    ∧ (Server.init_devices createW [⟨some "a"⟩, ⟨some "a"⟩, ⟨some "c"⟩]).lookup "a"
      = some "a" := by
  have h := C10_unique_names createW [⟨some "a"⟩] [⟨some "c"⟩] ⟨some "a"⟩ "a" "a"
    (by rfl) (by rfl)
  exact ⟨h.2.1, h.2.2⟩

/-! ## TCPServer.broadcast (lines 266-271) -/

/-- A live TCP connection: its peer address and its `sendall` behaviour
(which may fail with an exception). -/
abbrev TcpConn := String × (Bytes → Except String Unit)

/-- `TCPServer.broadcast`: iterate the live-connection map and call
`sock.sendall(msg)` on each inside `try/except` — the per-connection
outcome is recorded (a failure is logged) and the loop always continues
to the next connection. -/
def TCPServer.broadcast (conns : List TcpConn) (msg : Bytes) :
    List (String × Except String Unit) :=
  conns.map fun c => (c.1, c.2 msg)

/-- C8: broadcasting attempts a write of `msg` on every one of the `N`
live connections — the result list has one attempt per connection, in
order, and each connection's outcome is exactly its own `sendall`
applied to `msg`, independent of any other connection's failure; the
loop itself is total (never raises). -/
theorem C8_broadcast_all (conns : List TcpConn) (msg : Bytes) :
    (TCPServer.broadcast conns msg).length = conns.length
    ∧ (∀ i, i < conns.length →
        (TCPServer.broadcast conns msg).getD i ("", Except.ok ())
          = ((conns.getD i ("", fun _ => Except.ok ())).1,
             (conns.getD i ("", fun _ => Except.ok ())).2 msg))
    ∧ (∀ p, p ∈ conns → (p.1, p.2 msg) ∈ TCPServer.broadcast conns msg) := by
  refine ⟨List.length_map _ _, ?_, ?_⟩
  · intro i hi
    rw [TCPServer.broadcast]
    rw [List.getD_eq_getElem?_getD, List.getElem?_map]
    rw [List.getD_eq_getElem?_getD]
    cases hg : conns[i]? with
    | none =>
      rw [List.getElem?_eq_none_iff] at hg
      omega
    | some p => rfl
  · intro p hp
    exact List.mem_map_of_mem _ hp

/-- Connections used by the C8 witness: the middle peer's socket fails. -/
def connsW : List TcpConn :=
  [("peer1", fun _ => Except.ok ()),
   ("peer2", fun _ => Except.error "connection reset"),
   ("peer3", fun _ => Except.ok ())]

/-- C8 witness: with three open connections whose middle socket fails,
the broadcast still attempts all three writes and the two healthy peers
receive the message. -/
theorem C8_witness :
    (TCPServer.broadcast connsW [72, 73]).length = 3
    ∧ (TCPServer.broadcast connsW [72, 73]).getD 2 ("", Except.ok ())
        = ("peer3", Except.ok ())
    ∧ ("peer2", Except.error "connection reset") ∈ TCPServer.broadcast connsW [72, 73] := by
  have h := C8_broadcast_all connsW [72, 73]
  refine ⟨h.1, ?_, ?_⟩
  · rw [h.2.1 2 (by rw [show connsW.length = 3 from rfl]; omega)]
    rfl
  · exact h.2.2 ("peer2", fun _ => Except.error "connection reset")
      (by rw [connsW]; exact List.mem_cons_of_mem _ (List.mem_cons_self _ _))

/-! ## SerialServer.stop / close (lines 187-198) -/

/-- The OS-visible state owned by a `SerialServer`: whether the symlink
at `self.address` exists, and the two pty file descriptors (`None` once
closed). -/
structure SerialState where
  islink : Bool
  master : Option Nat
  slave : Option Nat
deriving DecidableEq

/-- Resource-release actions performed by `close`. -/
inductive FsAction
  | removeLink
  | closeFd (fd : Nat)
deriving DecidableEq

/-- Python truthiness of `self.master` / `self.slave`: `None` and `0`
are falsy. -/
def truthyFd : Option Nat → Bool
  | none => false
  | some n => n != 0

/-- The `if os.path.islink(self.address): os.remove(self.address)` step. -/
def closeLink (st : SerialState) : SerialState × List FsAction :=
  if st.islink then (⟨false, st.master, st.slave⟩, [FsAction.removeLink])
  else (st, [])

/-- The `if self.master: os.close(self.master); self.master = None` step. -/
def closeMaster (st : SerialState) : SerialState × List FsAction :=
  if truthyFd st.master then
    (⟨st.islink, none, st.slave⟩, [FsAction.closeFd (st.master.getD 0)])
  else (st, [])

/-- The `if self.slave: os.close(self.slave); self.slave = None` step. -/
def closeSlave (st : SerialState) : SerialState × List FsAction :=
  if truthyFd st.slave then
    (⟨st.islink, st.master, none⟩, [FsAction.closeFd (st.slave.getD 0)])
  else (st, [])

/-- `SerialServer.close`: remove the symlink if present, close each pty
fd if still open, in that order; returns the new state and the
resource-release actions performed. -/
def SerialServer.close (st : SerialState) : SerialState × List FsAction :=
  ((closeSlave (closeMaster (closeLink st).1).1).1,
    (closeLink st).2 ++ (closeMaster (closeLink st).1).2 ++
      (closeSlave (closeMaster (closeLink st).1).1).2)

/-- `SerialServer.stop` just delegates to `close`. -/
def SerialServer.stop (st : SerialState) : SerialState × List FsAction :=
  SerialServer.close st

theorem close_fst_islink (st : SerialState) :
    (SerialServer.close st).1.islink = false := by
  rw [SerialServer.close]
  rw [closeLink, closeMaster, closeSlave]
  by_cases h1 : st.islink
  · rw [if_pos h1]
    by_cases h2 : truthyFd st.master
    · rw [if_pos h2]
      by_cases h3 : truthyFd st.slave
      · rw [if_pos h3]
      · rw [if_neg h3]
    · rw [if_neg h2]
      by_cases h3 : truthyFd st.slave
      · rw [if_pos h3]
      · rw [if_neg h3]
  · rw [if_neg h1]
    by_cases h2 : truthyFd st.master
    · rw [if_pos h2]
      by_cases h3 : truthyFd st.slave
      · rw [if_pos h3]
        simpa using h1
      · rw [if_neg h3]
        simpa using h1
    · rw [if_neg h2]
      by_cases h3 : truthyFd st.slave
      · rw [if_pos h3]
        simpa using h1
      · rw [if_neg h3]
        simpa using h1

theorem closeMaster_master_falsy (st : SerialState) :
    truthyFd (closeMaster st).1.master = false := by
  rw [closeMaster]
  by_cases h : truthyFd st.master
  · rw [if_pos h]
    rfl
  · rw [if_neg h]
    simpa using h

theorem closeSlave_slave_falsy (st : SerialState) :
    truthyFd (closeSlave st).1.slave = false := by
  rw [closeSlave]
  by_cases h : truthyFd st.slave
  · rw [if_pos h]
    rfl
  · rw [if_neg h]
    simpa using h

theorem closeSlave_master (st : SerialState) :
    (closeSlave st).1.master = st.master := by
  rw [closeSlave]
  by_cases h : truthyFd st.slave
  · rw [if_pos h]
  · rw [if_neg h]

theorem closeMaster_no_removeLink (st : SerialState) :
    FsAction.removeLink ∉ (closeMaster st).2 := by
  rw [closeMaster]
  by_cases h : truthyFd st.master
  · rw [if_pos h]
    simp
  · rw [if_neg h]
    simp

theorem closeSlave_no_removeLink (st : SerialState) :
    FsAction.removeLink ∉ (closeSlave st).2 := by
  rw [closeSlave]
  by_cases h : truthyFd st.slave
  · rw [if_pos h]
    simp
  · rw [if_neg h]
    simp

/-- When the symlink is already gone and both descriptors are already
falsy (closed or never opened), `close` releases nothing and leaves the
state untouched. -/
theorem close_noop {st : SerialState} (h1 : st.islink = false)
    (h2 : truthyFd st.master = false) (h3 : truthyFd st.slave = false) :
    SerialServer.close st = (st, []) := by
  rw [SerialServer.close, closeLink, if_neg (by rw [h1]; exact Bool.false_ne_true)]
  rw [closeMaster, if_neg (by rw [h2]; exact Bool.false_ne_true)]
  rw [closeSlave, if_neg (by rw [h3]; exact Bool.false_ne_true)]
  rfl

/-- C9: stopping or closing a `SerialServer` is idempotent — after one
`close` has run, a further `close` or `stop` performs no resource
release (no symlink removal, no fd close) and leaves the state
unchanged; and a `close` on a state whose symlink was already removed
externally never attempts to remove it again. -/
theorem C9_stop_close_idempotent (st : SerialState) :
    SerialServer.close (SerialServer.close st).1 = ((SerialServer.close st).1, [])
    ∧ SerialServer.stop (SerialServer.close st).1 = ((SerialServer.close st).1, [])
    ∧ FsAction.removeLink ∉ (SerialServer.close ⟨false, st.master, st.slave⟩).2 := by
  have hm : truthyFd (SerialServer.close st).1.master = false := by
    rw [SerialServer.close]
    rw [show (closeSlave (closeMaster (closeLink st).1).1).1.master
      = (closeMaster (closeLink st).1).1.master from closeSlave_master _]
    exact closeMaster_master_falsy _
  have hsl : truthyFd (SerialServer.close st).1.slave = false := by
    rw [SerialServer.close]
    exact closeSlave_slave_falsy _
  have hno := close_noop (close_fst_islink st) hm hsl
  refine ⟨hno, hno, ?_⟩
  intro hmem
  rw [SerialServer.close] at hmem
  rw [show closeLink ⟨false, st.master, st.slave⟩
    = (⟨false, st.master, st.slave⟩, []) from by rw [closeLink]; simp] at hmem
  rw [List.nil_append] at hmem
  rcases List.mem_append.mp hmem with hmem | hmem
  · exact closeMaster_no_removeLink _ hmem
  · exact closeSlave_no_removeLink _ hmem
